import Mathlib

/-!
Shallow embedding of src/language_stats.py.

Documents and rendered text are modelled as List Char (Python str).
Byte counts are ℕ; Python float percentages are modelled as ℚ, with
division by powers of two being exact in both.
-/

/-- Occurrence predicate: the pattern occurs in the text at index i
(this is the notion underlying Python substring search). -/
def Occ (pat s : List Char) (i : ℕ) : Prop := pat <+: s.drop i

/-- Index of the first occurrence of pat in s, if any
(models the search underlying re.sub and str.find). -/
def findOcc (pat : List Char) : List Char → Option ℕ
  | [] => if pat.isEmpty then some 0 else none
  | c :: cs => if pat.isPrefixOf (c :: cs) then some 0 else (findOcc pat cs).map (· + 1)

/-- Index of the last occurrence of pat in s, if any
(models the search underlying str.rsplit with maxsplit 1). -/
def lastOcc (pat : List Char) : List Char → Option ℕ
  | [] => if pat.isEmpty then some 0 else none
  | c :: cs =>
    match lastOcc pat cs with
    | some i => some (i + 1)
    | none => if pat.isPrefixOf (c :: cs) then some 0 else none

/-- Substring test, models the Python expression pat in s. -/
def containsSub (pat s : List Char) : Bool := (findOcc pat s).isSome

/-- Fuel-indexed worker for reSub. -/
def reSubGo (fuel : ℕ) (sp ep repl : List Char) (s : List Char) : List Char :=
  match fuel with
  | 0 => s
  | fuel + 1 =>
    match findOcc sp s with
    | none => s
    | some i =>
      match findOcc ep (s.drop (i + sp.length)) with
      | none => s
      | some j =>
        s.take i ++ repl ++ reSubGo fuel sp ep repl (s.drop (i + sp.length + j + ep.length))

/-- The substitution of re.sub(re.escape(sp) + ".*?" + re.escape(ep), repl, s,
flags=re.DOTALL) in the case where repl contains no backslash: Python then uses
repl literally, and every non-overlapping leftmost-shortest span from sp to the
next ep is replaced by it. The general case, in which re.sub first processes
backslash escapes in repl, is reSubT below; reSubT_noBackslash proves the two
agree whenever repl is backslash-free. -/
def reSub (sp ep repl s : List Char) : List Char := reSubGo s.length sp ep repl s

/-- The literal start marker from update_readme. -/
def startMarker : List Char := "<!-- LANGUAGE_STATS_START -->".data

/-- The literal end marker from update_readme. -/
def endMarker : List Char := "<!-- LANGUAGE_STATS_END -->".data

/-- The closing delimiter of documentation comments, used by the insert branch. -/
def arrowDelim : List Char := "-->".data

/-- The title line placed between the start marker and the table. -/
def sectionTitle : List Char := "\n## 📊 使用言語統計\n\n".data

/-- A blank line separator. -/
def blank2 : List Char := "\n\n".data

/-- The replacement section built by update_readme:
start marker, title, rendered table, blank line, end marker. -/
def statsSection (stats_markdown : List Char) : List Char :=
  startMarker ++ sectionTitle ++ stats_markdown ++ blank2 ++ endMarker

/-- The document transformation performed by update_readme between the read
and the write, for a rendered table without backslashes (so that re.sub uses
the replacement literally): replace the marker-delimited spans if both markers
are present, otherwise insert after the last closing delimiter if one exists,
otherwise append at the end. The transformation with full re.sub template
processing is updateContentT below; updateContentT_eq proves they coincide on
backslash-free tables. -/
def updateContent (stats_markdown content : List Char) : List Char :=
  if containsSub startMarker content && containsSub endMarker content then
    reSub startMarker endMarker (statsSection stats_markdown) content
  else
    match lastOcc arrowDelim content with
    | some i =>
      content.take i ++ arrowDelim ++ blank2 ++ statsSection stats_markdown
        ++ content.drop (i + arrowDelim.length)
    | none => content ++ blank2 ++ statsSection stats_markdown

/-- One element of a parsed re.sub replacement template: a literal character,
or a reference to group 0, the whole match. The marker pattern of this program
has no capturing groups, so no other group can be validly referenced. -/
inductive ReplPiece where
  | ch (c : Char)
  | group0
deriving DecidableEq

/-- Octal digit test for template escapes. -/
def isOctChar (c : Char) : Bool := '0' ≤ c && c ≤ '7'

/-- Value of a decimal or octal digit. -/
def octVal (c : Char) : ℕ := c.toNat - '0'.toNat

/-- The letter escapes of a replacement template (the ESCAPES table of
CPython's re parser): bell, backspace, form feed, newline, carriage return,
tab, vertical tab, and an escaped backslash. -/
def templEscape (c : Char) : Option Char :=
  if c = 'a' then some (Char.ofNat 7)
  else if c = 'b' then some (Char.ofNat 8)
  else if c = 'f' then some (Char.ofNat 12)
  else if c = 'n' then some (Char.ofNat 10)
  else if c = 'r' then some (Char.ofNat 13)
  else if c = 't' then some (Char.ofNat 9)
  else if c = 'v' then some (Char.ofNat 11)
  else if c = '\\' then some '\\'
  else none

/-- One backslash escape of a re.sub replacement template, after CPython's
template parser specialised to a pattern with no capturing groups. The input
is the text after the backslash; the result is the produced pieces plus the
unconsumed remainder, or an error where CPython raises (re.error for a bad
escape or invalid group reference, IndexError for an unknown group name -
either way the program aborts before the write, which is all that matters
here). Cases: a backslash at the end is a bad escape; \g<digits> references
group 0 when the digits are all zero and is an invalid group reference
otherwise (group-zero spellings that only Python's int() accepts, such as a
leading plus sign, are also treated as errors - they cannot arise here);
\0 with up to two further octal digits is an octal escape, as is a three
octal digit \ooo up to 0o377; every other \digits form is a group reference
and therefore invalid (this pattern has no groups); the letter escapes of
templEscape produce their character; any other ASCII letter is a bad escape;
a backslash before any other character is kept literally. -/
def escStep : List Char → Except Unit (List ReplPiece × List Char)
  | [] => .error ()
  | c :: rest =>
    if c = 'g' then
      match rest with
      | '<' :: rest2 =>
        match rest2.dropWhile (fun d => d ≠ '>') with
        | '>' :: tail =>
          let name := rest2.takeWhile (fun d => d ≠ '>')
          if name = [] then .error ()
          else if name.all (fun d => d.isDigit) then
            if name.all (fun d => d = '0') then .ok ([.group0], tail) else .error ()
          else .error ()
        | _ => .error ()
      | _ => .error ()
    else if c = '0' then
      match rest with
      | d1 :: d2 :: tail =>
        if isOctChar d1 && isOctChar d2 then
          .ok ([.ch (Char.ofNat (octVal d1 * 8 + octVal d2))], tail)
        else if isOctChar d1 then .ok ([.ch (Char.ofNat (octVal d1))], d2 :: tail)
        else .ok ([.ch (Char.ofNat 0)], rest)
      | [d1] =>
        if isOctChar d1 then .ok ([.ch (Char.ofNat (octVal d1))], [])
        else .ok ([.ch (Char.ofNat 0)], rest)
      | [] => .ok ([.ch (Char.ofNat 0)], [])
    else if c.isDigit then
      match rest with
      | d1 :: d2 :: tail =>
        if d1.isDigit && (isOctChar c && (isOctChar d1 && isOctChar d2)) then
          if octVal c * 64 + octVal d1 * 8 + octVal d2 ≤ 255 then
            .ok ([.ch (Char.ofNat (octVal c * 64 + octVal d1 * 8 + octVal d2))], tail)
          else .error ()
        else .error ()
      | _ => .error ()
    else
      match templEscape c with
      | some e => .ok ([.ch e], rest)
      | none => if c.isAlpha then .error () else .ok ([.ch '\\', .ch c], rest)

/-- Fuel-indexed template parser: literal characters pass through, a
backslash hands the rest to escStep. Every step consumes the head character
and escStep only returns a suffix of its input, so with fuel one larger than
the input length the out-of-fuel branch is never reached. -/
def parseTemplGo : ℕ → List Char → Except Unit (List ReplPiece)
  | _, [] => .ok []
  | 0, _ :: _ => .error ()
  | fuel + 1, c :: tail =>
    if c = '\\' then
      match escStep tail with
      | .error e => .error e
      | .ok (ps, rest) => (parseTemplGo fuel rest).map (fun qs => ps ++ qs)
    else (parseTemplGo fuel tail).map (fun qs => ReplPiece.ch c :: qs)

/-- Model of CPython's parse of a re.sub replacement template (for a pattern
with no capturing groups): the list of pieces, or an error where Python
raises. A template without backslashes parses to its own characters. -/
def parseReplTemplate (repl : List Char) : Except Unit (List ReplPiece) :=
  parseTemplGo (repl.length + 1) repl

/-- Expansion of a parsed template at a match: group 0 becomes the whole
matched span. -/
def expandTemplate : List ReplPiece → List Char → List Char
  | [], _ => []
  | .ch c :: ps, matched => c :: expandTemplate ps matched
  | .group0 :: ps, matched => matched ++ expandTemplate ps matched

/-- Fuel-indexed worker for reSubT: like reSubGo, but each matched span is
replaced by the expansion of the parsed template at that span. -/
def reSubTGo (fuel : ℕ) (sp ep : List Char) (tmpl : List ReplPiece)
    (s : List Char) : List Char :=
  match fuel with
  | 0 => s
  | fuel + 1 =>
    match findOcc sp s with
    | none => s
    | some i =>
      match findOcc ep (s.drop (i + sp.length)) with
      | none => s
      | some j =>
        s.take i ++ expandTemplate tmpl ((s.drop i).take (sp.length + j + ep.length))
          ++ reSubTGo fuel sp ep tmpl (s.drop (i + sp.length + j + ep.length))

/-- Model of re.sub(re.escape(sp) + ".*?" + re.escape(ep), repl, s,
flags=re.DOTALL) with the full replacement-template semantics: the template
is parsed for backslash escapes exactly as CPython does (an invalid template
raises, aborting the program before the write), and every non-overlapping
leftmost-shortest span from sp to the next ep is replaced by the expansion of
the template, group 0 being the matched span. -/
def reSubT (sp ep repl s : List Char) : Except Unit (List Char) :=
  match parseReplTemplate repl with
  | .error e => .error e
  | .ok tmpl => .ok (reSubTGo s.length sp ep tmpl s)

/-- The document transformation of update_readme with the full re.sub
semantics: the two insert branches never invoke re.sub and always succeed;
the replace branch can abort when the rendered table makes the replacement an
invalid template. -/
def updateContentT (stats_markdown content : List Char) : Except Unit (List Char) :=
  if containsSub startMarker content && containsSub endMarker content then
    reSubT startMarker endMarker (statsSection stats_markdown) content
  else
    .ok (match lastOcc arrowDelim content with
    | some i =>
      content.take i ++ arrowDelim ++ blank2 ++ statsSection stats_markdown
        ++ content.drop (i + arrowDelim.length)
    | none => content ++ blank2 ++ statsSection stats_markdown)

instance : DecidableEq (Except Unit (List Char)) := fun a b =>
  match a, b with
  | .error (), .error () => isTrue rfl
  | .ok x, .ok y =>
    if h : x = y then isTrue (by rw [h]) else isFalse (fun hc => h (Except.ok.inj hc))
  | .error _, .ok _ => isFalse (fun hc => Except.noConfusion hc)
  | .ok _, .error _ => isFalse (fun hc => Except.noConfusion hc)

/-- The default starting document used when the target file is missing. -/
def defaultContent : List Char := "# GitHub Profile\n\n".data

/-- Outcome of the attempt to read the target document: success with its
content, a missing file (FileNotFoundError), or any other read failure
(for example PermissionError), which the source does not catch. -/
inductive ReadOutcome where
  | ok (content : List Char)
  | fileNotFound
  | otherError
deriving DecidableEq

/-- Model of update_readme: the read outcome is passed in; an ok value is the
content written back, and an error is an uncaught exception propagating
before the write - either a read failure other than FileNotFoundError (only
that one is caught by the source), or an invalid replacement template in
re.sub. -/
def update_readme (stats_markdown : List Char) (readOutcome : ReadOutcome) :
    Except Unit (List Char) :=
  match readOutcome with
  | .ok content => updateContentT stats_markdown content
  | .fileNotFound => updateContentT stats_markdown defaultContent
  | .otherError => .error ()

/-- A repository record as consumed by the aggregation loop of
get_language_stats: the fork flag, and the result of fetching its language
byte map (none models a response with a non-success status). -/
structure Repo where
  fork : Bool
  languages : Option (List (String × ℕ))

/-- Model of the defaultdict(int) update language_bytes[lang] += bytes_count:
add to the entry for lang if present, otherwise append a new entry. -/
def bumpLang : List (String × ℕ) → String → ℕ → List (String × ℕ)
  | [], lang, b => [(lang, b)]
  | (k, v) :: rest, lang, b =>
    if k = lang then (k, v + b) :: rest else (k, v) :: bumpLang rest lang b

/-- One iteration of the aggregation loop of get_language_stats: forks are
skipped, a failed fetch contributes nothing, otherwise every language of the
repository is summed into the accumulator. -/
def addRepo (acc : List (String × ℕ)) (repo : Repo) : List (String × ℕ) :=
  if repo.fork then acc
  else
    match repo.languages with
    | none => acc
    | some langs => langs.foldl (fun a p => bumpLang a p.1 p.2) acc

/-- Model of the aggregation part of get_language_stats (lines 51 to 65 of the
source): fold the per-repository language maps into one mapping. The earlier
pagination loop only produces the repository list and is not claimed about. -/
def get_language_stats (repos : List Repo) : List (String × ℕ) :=
  repos.foldl addRepo []

/-- Stable insertion of an entry into a list sorted by percentage descending:
the entry goes before the first element whose percentage does not exceed it.
Since sortByPercent inserts from the right (the earliest element last), each
element lands before later elements of equal percentage - exactly the order
of Python's stable list.sort with reverse=True. -/
def insertByPercent (x : String × ℚ × ℕ) :
    List (String × ℚ × ℕ) → List (String × ℚ × ℕ)
  | [] => [x]
  | y :: ys => if y.2.1 ≤ x.2.1 then x :: y :: ys else y :: insertByPercent x ys

/-- Model of percentages.sort(key=lambda x: x[1], reverse=True): a stable
sort by percentage descending (Python list.sort is stable, and reverse=True
keeps equal elements in their original order). -/
def sortByPercent : List (String × ℚ × ℕ) → List (String × ℚ × ℕ)
  | [] => []
  | x :: xs => insertByPercent x (sortByPercent xs)

/-- Model of calculate_percentages: empty mapping gives an empty list,
otherwise each (lang, bytes) becomes (lang, bytes / total * 100, bytes) and
the list is sorted by percentage descending. -/
def calculate_percentages (language_bytes : List (String × ℕ)) :
    List (String × ℚ × ℕ) :=
  if language_bytes = [] then []
  else
    let total_bytes : ℕ := (language_bytes.map (fun p => p.2)).sum
    sortByPercent
      (language_bytes.map
        (fun p => (p.1, ((p.2 : ℚ) / (total_bytes : ℚ)) * 100, p.2)))

/-- Truncation toward zero of a rational, models Python int() on a float. -/
def ratTrunc (q : ℚ) : ℤ := q.num.tdiv (q.den : ℤ)

/-- Number of filled glyphs: int(bar_length * percent / 100) with
bar_length = 20. -/
def barFilled (percent : ℚ) : ℤ := ratTrunc (20 * percent / 100)

/-- The progress bar of format_stats_markdown: filled glyphs then empty
glyphs; Python string repetition with a negative count gives the empty
string, which Int.toNat reproduces. -/
def bar (percent : ℚ) : List Char :=
  List.replicate (barFilled percent).toNat '█'
    ++ List.replicate ((20 - barFilled percent).toNat) '░'

/-- Two-digit zero-padded decimal rendering of a number below 100. -/
def pad2 (n : ℕ) : List Char :=
  if n < 10 then '0' :: (toString n).data else (toString n).data

/-- Rounding to the nearest integer with ties to even. -/
def roundHalfEven (q : ℚ) : ℤ :=
  if q - ⌊q⌋ < 1 / 2 then ⌊q⌋
  else if 1 / 2 < q - ⌊q⌋ then ⌊q⌋ + 1
  else if ⌊q⌋ % 2 = 0 then ⌊q⌋ else ⌊q⌋ + 1

/-- Fixed two-decimal rendering of a nonnegative rational, with ties rounded
to even: this is what CPython f-string .2f formatting produces on the values
of this program, all of which are nonnegative and exactly representable
(integers divided by powers of two). -/
def fmt2 (q : ℚ) : List Char :=
  let n := (roundHalfEven (q * 100)).toNat
  (toString (n / 100)).data ++ '.' :: pad2 (n % 100)

/-- The human-readable size column of format_stats_markdown. -/
def sizeStr (bytes_count : ℕ) : List Char :=
  if bytes_count ≥ 1024 * 1024 then
    fmt2 ((bytes_count : ℚ) / (1024 * 1024)) ++ " MB".data
  else if bytes_count ≥ 1024 then
    fmt2 ((bytes_count : ℚ) / 1024) ++ " KB".data
  else (toString bytes_count).data ++ " bytes".data

/-- One table row of format_stats_markdown. -/
def formatRow (e : String × ℚ × ℕ) : List Char :=
  "| ".data ++ e.1.data ++ " | ".data ++ fmt2 e.2.1 ++ "% ".data ++ bar e.2.1
    ++ " | ".data ++ sizeStr e.2.2 ++ " |\n".data

/-- Model of format_stats_markdown: the no-data message on an empty input,
otherwise header, separator and one row per entry. -/
def format_stats_markdown (percentages : List (String × ℚ × ℕ)) : List Char :=
  if percentages = [] then "統計データがありません。".data
  else
    "| 言語 | 使用割合 | コード量 |\n".data
      ++ "|------|----------|----------|\n".data
      ++ (percentages.map formatRow).flatten

/-! Basic facts about occurrences and the search primitives. -/

theorem prefApp (l₁ l₂ : List Char) : l₁ <+: l₁ ++ l₂ :=
  List.prefix_append _ _

theorem prefNil {l : List Char} : l <+: [] ↔ l = [] :=
  List.prefix_nil

theorem nilPref {l : List Char} : [] <+: l :=
  List.nil_prefix

theorem prefOfPrefLe {l₁ l₂ l₃ : List Char} (h₁ : l₁ <+: l₃) (h₂ : l₂ <+: l₃)
    (h : l₁.length ≤ l₂.length) : l₁ <+: l₂ :=
  List.prefix_of_prefix_length_le h₁ h₂ h

theorem isPrefIff {l₁ l₂ : List Char} : l₁.isPrefixOf l₂ = true ↔ l₁ <+: l₂ :=
  List.isPrefixOf_iff_prefix

theorem prefEqTake {l₁ l₂ : List Char} : l₁ <+: l₂ ↔ l₁ = l₂.take l₁.length :=
  List.prefix_iff_eq_take

theorem occ_length {pat s : List Char} {i : ℕ} (hp : pat ≠ []) (h : Occ pat s i) :
    i + pat.length ≤ s.length := by
  have h1 := h.length_le
  rw [List.length_drop] at h1
  have h2 : 0 < pat.length := List.length_pos.mpr hp
  omega

theorem occ_append_l {pat x : List Char} (y : List Char) {i : ℕ} (h : Occ pat x i) :
    Occ pat (x ++ y) i := by
  unfold Occ at *
  by_cases hi : i ≤ x.length
  · rw [List.drop_append_of_le_length hi]
    exact h.trans (prefApp _ _)
  · have hx : x.drop i = [] := List.drop_eq_nil_of_le (by omega)
    rw [hx] at h
    have : pat = [] := prefNil.mp h
    subst this
    exact nilPref

theorem occ_append_r {pat y : List Char} (x : List Char) {j : ℕ} (h : Occ pat y j) :
    Occ pat (x ++ y) (x.length + j) := by
  unfold Occ at *
  rw [← List.drop_drop, List.drop_left]
  exact h

theorem occ_drop {pat s : List Char} {m j : ℕ} (h : Occ pat (s.drop m) j) :
    Occ pat s (m + j) := by
  unfold Occ at *
  rwa [← List.drop_drop]

theorem occ_of_take {pat s : List Char} {m i : ℕ} (h : Occ pat (s.take m) i) :
    Occ pat s i := by
  have h2 := occ_append_l (s.drop m) h
  rwa [List.take_append_drop] at h2

theorem pref_split {l a b : List Char} (h : l <+: a ++ b) :
    (l.length ≤ a.length ∧ l <+: a) ∨
      (a.length < l.length ∧ l.take a.length = a ∧ l.drop a.length <+: b) := by
  rcases le_or_lt l.length a.length with hle | hlt
  · exact Or.inl ⟨hle, prefOfPrefLe h (prefApp a b) hle⟩
  · obtain ⟨t, ht⟩ := h
    have h1 : l.take a.length = a := by
      have h2 := congrArg (List.take a.length) ht
      rwa [List.take_append_of_le_length (le_of_lt hlt), List.take_left] at h2
    have h2 : l.drop a.length ++ t = b := by
      have h3 := congrArg (List.drop a.length) ht
      rwa [List.drop_append_of_le_length (le_of_lt hlt), List.drop_left] at h3
    exact Or.inr ⟨hlt, h1, ⟨t, h2⟩⟩

theorem occ_append_split {pat x y : List Char} {i : ℕ} (h : Occ pat (x ++ y) i) :
    Occ pat x i ∨ (x.length ≤ i ∧ Occ pat y (i - x.length)) ∨
      (i < x.length ∧ x.length < i + pat.length ∧ pat.take (x.length - i) = x.drop i ∧
        Occ (pat.drop (x.length - i)) y 0) := by
  rcases le_or_lt x.length i with hxi | hxi
  · right; left
    refine ⟨hxi, ?_⟩
    unfold Occ at *
    rwa [show i = x.length + (i - x.length) by omega, ← List.drop_drop, List.drop_left] at h
  · unfold Occ at h
    rw [List.drop_append_of_le_length (le_of_lt hxi)] at h
    rcases pref_split h with ⟨h1, h2⟩ | ⟨h1, h2, h3⟩
    · left; exact h2
    · right; right
      rw [List.length_drop] at h1 h2
      exact ⟨hxi, by omega, h2, by simpa [Occ] using h3⟩

theorem findOcc_some {pat s : List Char} {i : ℕ} (h : findOcc pat s = some i) :
    Occ pat s i ∧ ∀ j, j < i → ¬ Occ pat s j := by
  induction s generalizing i with
  | nil =>
    unfold findOcc at h
    by_cases he : pat.isEmpty = true
    · rw [if_pos he] at h
      obtain rfl : (0 : ℕ) = i := by injection h
      have hpe : pat = [] := List.isEmpty_iff.mp he
      exact ⟨by simp [Occ, hpe], by omega⟩
    · rw [if_neg he] at h
      exact absurd h (by simp)
  | cons c cs ih =>
    unfold findOcc at h
    by_cases hp : pat.isPrefixOf (c :: cs) = true
    · rw [if_pos hp] at h
      obtain rfl : i = 0 := by injection h with h; omega
      exact ⟨by simpa [Occ] using isPrefIff.mp hp, by omega⟩
    · rw [if_neg hp] at h
      rcases Option.map_eq_some'.mp h with ⟨i', hi', rfl⟩
      obtain ⟨h1, h2⟩ := ih hi'
      constructor
      · simpa [Occ, List.drop_succ_cons] using h1
      · intro j hj
        cases j with
        | zero =>
          intro hocc
          exact hp (isPrefIff.mpr (by simpa [Occ] using hocc))
        | succ j' =>
          intro hocc
          exact h2 j' (by omega) (by simpa [Occ, List.drop_succ_cons] using hocc)

theorem findOcc_none {pat s : List Char} (h : findOcc pat s = none) :
    ∀ j, ¬ Occ pat s j := by
  induction s with
  | nil =>
    unfold findOcc at h
    by_cases he : pat.isEmpty
    · simp [he] at h
    · intro j hocc
      simp only [Occ, List.drop_nil] at hocc
      exact he (List.isEmpty_iff.mpr (prefNil.mp hocc))
  | cons c cs ih =>
    unfold findOcc at h
    by_cases hp : pat.isPrefixOf (c :: cs) = true
    · simp [hp] at h
    · rw [if_neg hp] at h
      have h2 := Option.map_eq_none'.mp h
      intro j
      cases j with
      | zero =>
        intro hocc
        exact hp (isPrefIff.mpr (by simpa [Occ] using hocc))
      | succ j' =>
        intro hocc
        exact ih h2 j' (by simpa [Occ, List.drop_succ_cons] using hocc)

theorem findOcc_eq_some {pat s : List Char} {i : ℕ} (h1 : Occ pat s i)
    (h2 : ∀ j, j < i → ¬ Occ pat s j) : findOcc pat s = some i := by
  induction s generalizing i with
  | nil =>
    have hpe : pat = [] := by
      rw [Occ, List.drop_nil] at h1
      exact prefNil.mp h1
    have hi : i = 0 := by
      by_contra h0
      exact h2 0 (by omega) (by simp [Occ, hpe])
    subst hi
    unfold findOcc
    simp [hpe]
  | cons c cs ih =>
    unfold findOcc
    by_cases hp : pat.isPrefixOf (c :: cs) = true
    · have hi : i = 0 := by
        by_contra h0
        exact h2 0 (by omega) (by simpa [Occ] using isPrefIff.mp hp)
      subst hi
      simp [hp]
    · have hi0 : i ≠ 0 := by
        rintro rfl
        exact hp (isPrefIff.mpr (by simpa [Occ] using h1))
      obtain ⟨i', rfl⟩ : ∃ i', i = i' + 1 := ⟨i - 1, by omega⟩
      rw [if_neg hp]
      have hrec := @ih i' (by simpa [Occ, List.drop_succ_cons] using h1)
        (fun j hj hocc => h2 (j + 1) (by omega) (by simpa [Occ, List.drop_succ_cons] using hocc))
      simp [hrec]

theorem lastOcc_none {pat s : List Char} (hp : pat ≠ []) (h : lastOcc pat s = none) :
    ∀ j, ¬ Occ pat s j := by
  induction s with
  | nil =>
    intro j hocc
    rw [Occ, List.drop_nil] at hocc
    exact hp (prefNil.mp hocc)
  | cons c cs ih =>
    unfold lastOcc at h
    cases hl : lastOcc pat cs with
    | some i => rw [hl] at h; simp at h
    | none =>
      rw [hl] at h
      by_cases hp2 : pat.isPrefixOf (c :: cs) = true
      · simp [hp2] at h
      · intro j
        cases j with
        | zero =>
          intro hocc
          exact hp2 (isPrefIff.mpr (by simpa [Occ] using hocc))
        | succ j' =>
          intro hocc
          exact ih hl j' (by simpa [Occ, List.drop_succ_cons] using hocc)

theorem lastOcc_some {pat s : List Char} {i : ℕ} (hp : pat ≠ [])
    (h : lastOcc pat s = some i) : Occ pat s i ∧ ∀ j, i < j → ¬ Occ pat s j := by
  induction s generalizing i with
  | nil =>
    unfold lastOcc at h
    have hpe : pat.isEmpty = false := by
      cases pat with
      | nil => exact absurd rfl hp
      | cons a l => rfl
    simp [hpe] at h
  | cons c cs ih =>
    unfold lastOcc at h
    cases hl : lastOcc pat cs with
    | some i' =>
      rw [hl] at h
      obtain rfl : i = i' + 1 := by injection h with h; omega
      obtain ⟨h1, h2⟩ := ih hl
      constructor
      · simpa [Occ, List.drop_succ_cons] using h1
      · intro j hj
        obtain ⟨j', rfl⟩ : ∃ j', j = j' + 1 := ⟨j - 1, by omega⟩
        intro hocc
        exact h2 j' (by omega) (by simpa [Occ, List.drop_succ_cons] using hocc)
    | none =>
      rw [hl] at h
      by_cases hp2 : pat.isPrefixOf (c :: cs) = true
      · rw [if_pos hp2] at h
        obtain rfl : i = 0 := by injection h with h; omega
        constructor
        · simpa [Occ] using isPrefIff.mp hp2
        · intro j hj
          obtain ⟨j', rfl⟩ : ∃ j', j = j' + 1 := ⟨j - 1, by omega⟩
          intro hocc
          exact lastOcc_none hp hl j' (by simpa [Occ, List.drop_succ_cons] using hocc)
      · simp [hp2] at h

theorem containsSub_of_occ {pat s : List Char} (j : ℕ) (h : Occ pat s j) :
    containsSub pat s = true := by
  unfold containsSub
  cases hf : findOcc pat s with
  | some i => simp
  | none => exact absurd h (findOcc_none hf j)

theorem exists_occ_of_containsSub {pat s : List Char} (h : containsSub pat s = true) :
    ∃ j, Occ pat s j := by
  unfold containsSub at h
  cases hf : findOcc pat s with
  | none => rw [hf] at h; simp at h
  | some i => exact ⟨i, (findOcc_some hf).1⟩

theorem not_occ_of_containsSub_eq_false {pat s : List Char}
    (h : containsSub pat s = false) : ∀ j, ¬ Occ pat s j := by
  intro j hocc
  rw [containsSub_of_occ _ hocc] at h
  exact absurd h (by simp)

/-! Unfolding lemmas for reSub. -/

theorem reSubGo_nil (fuel : ℕ) (sp ep repl : List Char) (hsp : sp ≠ []) :
    reSubGo fuel sp ep repl [] = [] := by
  have hpe : sp.isEmpty = false := by
    cases sp with
    | nil => exact absurd rfl hsp
    | cons a l => rfl
  cases fuel with
  | zero => rfl
  | succ n => simp [reSubGo, findOcc, hpe]

theorem reSubGo_fuel {sp ep repl : List Char} (hsp : sp ≠ []) :
    ∀ n m s, s.length ≤ n → s.length ≤ m →
      reSubGo n sp ep repl s = reSubGo m sp ep repl s := by
  intro n
  induction n with
  | zero =>
    intro m s hn hm
    have hs : s = [] := List.length_eq_zero.mp (by omega)
    subst hs
    rw [reSubGo_nil _ _ _ _ hsp, reSubGo_nil _ _ _ _ hsp]
  | succ n ih =>
    intro m s hn hm
    cases s with
    | nil => rw [reSubGo_nil _ _ _ _ hsp, reSubGo_nil _ _ _ _ hsp]
    | cons c cs =>
      cases m with
      | zero => simp at hm
      | succ m' =>
        show reSubGo (n + 1) sp ep repl (c :: cs) = reSubGo (m' + 1) sp ep repl (c :: cs)
        cases h1 : findOcc sp (c :: cs) with
        | none => simp only [reSubGo, h1]
        | some i =>
          cases h2 : findOcc ep ((c :: cs).drop (i + sp.length)) with
          | none => simp only [reSubGo, h1, h2]
          | some j =>
            simp only [reSubGo, h1, h2]
            have hocc := (findOcc_some h1).1
            have hlen := occ_length hsp hocc
            have hsp1 : 0 < sp.length := List.length_pos.mpr hsp
            have hrem : ((c :: cs).drop (i + sp.length + j + ep.length)).length ≤ n ∧
                ((c :: cs).drop (i + sp.length + j + ep.length)).length ≤ m' := by
              rw [List.length_drop]
              simp only [List.length_cons] at hn hm ⊢
              omega
            rw [ih _ _ hrem.1 hrem.2]

theorem reSub_nil (sp ep repl : List Char) : reSub sp ep repl [] = [] := rfl

theorem reSub_of_none1 {sp ep repl s : List Char} (h : findOcc sp s = none) :
    reSub sp ep repl s = s := by
  cases s with
  | nil => rfl
  | cons c cs =>
    show reSubGo (c :: cs).length sp ep repl (c :: cs) = c :: cs
    rw [List.length_cons]
    simp only [reSubGo, h]

theorem reSub_of_none2 {sp ep repl s : List Char} {i : ℕ} (h1 : findOcc sp s = some i)
    (h2 : findOcc ep (s.drop (i + sp.length)) = none) : reSub sp ep repl s = s := by
  cases s with
  | nil => rfl
  | cons c cs =>
    show reSubGo (c :: cs).length sp ep repl (c :: cs) = c :: cs
    rw [List.length_cons]
    simp only [reSubGo, h1, h2]

theorem reSub_step {sp ep s : List Char} {i j : ℕ} (repl : List Char) (hsp : sp ≠ [])
    (h1 : findOcc sp s = some i) (h2 : findOcc ep (s.drop (i + sp.length)) = some j) :
    reSub sp ep repl s =
      s.take i ++ repl ++ reSub sp ep repl (s.drop (i + sp.length + j + ep.length)) := by
  cases s with
  | nil =>
    exfalso
    exact absurd ((findOcc_some h1).1) (by
      intro hocc
      simp only [Occ, List.drop_nil] at hocc
      exact hsp (prefNil.mp hocc))
  | cons c cs =>
    have hocc := (findOcc_some h1).1
    have hlen := occ_length hsp hocc
    have hsp1 : 0 < sp.length := List.length_pos.mpr hsp
    show reSubGo (c :: cs).length sp ep repl (c :: cs) = _
    rw [List.length_cons]
    simp only [reSubGo, h1, h2]
    congr 1
    apply reSubGo_fuel hsp
    · rw [List.length_drop]
      simp only [List.length_cons] at hlen ⊢
      omega
    · exact le_refl _

/-! Concrete facts about the marker literals, and junction lemmas describing
where occurrences can sit inside concatenations. -/

theorem startMarker_ne_nil : startMarker ≠ [] := by decide

theorem endMarker_ne_nil : endMarker ≠ [] := by decide

theorem arrowDelim_ne_nil : arrowDelim ≠ [] := by decide

theorem startMarker_noBorder : ∀ k, k < startMarker.length → 0 < k →
    startMarker.drop k ≠ startMarker.take (startMarker.length - k) := by decide

theorem endMarker_noBorder : ∀ k, k < endMarker.length → 0 < k →
    endMarker.drop k ≠ endMarker.take (endMarker.length - k) := by decide

theorem newline_not_mem_startMarker : '\n' ∉ startMarker := by decide

theorem newline_not_mem_endMarker : '\n' ∉ endMarker := by decide

theorem endMarker_head : endMarker.head? = some '<' := by decide

theorem occ_head_mem {pat s : List Char} {j : ℕ} {c : Char} (hc : pat.head? = some c)
    (h : Occ pat s j) : c ∈ s := by
  obtain ⟨t, ht⟩ := h
  have h1 : c ∈ pat := List.mem_of_mem_head? (by simp [hc])
  have h2 : c ∈ s.drop j := by
    rw [← ht]
    exact List.mem_append_left _ h1
  exact List.drop_subset _ _ h2

theorem findOcc_append_first {pat g t : List Char} (hpat : pat ≠ [])
    (hnb : ∀ k, k < pat.length → 0 < k →
      pat.drop k ≠ pat.take (pat.length - k))
    (hg : ∀ j, ¬ Occ pat g j) (ht : pat <+: t) :
    findOcc pat (g ++ t) = some g.length := by
  apply findOcc_eq_some
  · unfold Occ
    rw [List.drop_left]
    exact ht
  · intro j hj hocc
    rcases occ_append_split hocc with hin | ⟨hle, _⟩ | ⟨h1, h2, h3, h4⟩
    · exact hg j hin
    · omega
    · have hkpos : 0 < g.length - j := by omega
      have hklt : g.length - j < pat.length := by omega
      have h5 : pat.drop (g.length - j) <+: t := by simpa [Occ] using h4
      have h6 : pat.drop (g.length - j) <+: pat :=
        prefOfPrefLe h5 ht (by rw [List.length_drop]; exact Nat.sub_le _ _)
      have h7 : pat.drop (g.length - j) = pat.take (pat.length - (g.length - j)) := by
        have h8 := prefEqTake.mp h6
        rwa [List.length_drop] at h8
      exact hnb _ hklt hkpos h7

theorem occ_append_nl {pat x y : List Char} {i : ℕ} (hpat : pat ≠ [])
    (hnl : '\n' ∉ pat) (h : Occ pat (x ++ '\n' :: y) i) :
    Occ pat x i ∨ (Occ pat y (i - (x.length + 1)) ∧ x.length + 1 ≤ i) := by
  rcases occ_append_split h with hin | ⟨hle, hocc⟩ | ⟨h1, h2, h3, h4⟩
  · exact Or.inl hin
  · rcases Nat.eq_or_lt_of_le hle with heq | hlt
    · exfalso
      rw [← heq, Nat.sub_self] at hocc
      have h5 : pat <+: '\n' :: y := by simpa [Occ] using hocc
      obtain ⟨t, ht⟩ := h5
      cases pat with
      | nil => exact hpat rfl
      | cons c cp =>
        rw [List.cons_append] at ht
        injection ht with h6 _
        exact hnl (h6 ▸ List.mem_cons_self _ _)
    · right
      have h5 : ('\n' :: y).drop (i - x.length) = y.drop (i - (x.length + 1)) := by
        rw [show i - x.length = (i - (x.length + 1)) + 1 by omega]
        exact List.drop_succ_cons
      refine ⟨?_, by omega⟩
      unfold Occ at hocc ⊢
      rwa [h5] at hocc
  · exfalso
    have h5 : pat.drop (x.length - i) <+: '\n' :: y := by simpa [Occ] using h4
    obtain ⟨t, ht⟩ := h5
    cases hd : pat.drop (x.length - i) with
    | nil =>
      have h6 : pat.length ≤ x.length - i := by
        have h7 := congrArg List.length hd
        rw [List.length_drop] at h7
        simp at h7
        omega
      omega
    | cons c cp =>
      rw [hd, List.cons_append] at ht
      injection ht with h6 _
      have h7 : c ∈ pat := by
        have h8 : c ∈ pat.drop (x.length - i) := by
          rw [hd]
          exact List.mem_cons_self _ _
        exact List.drop_subset _ _ h8
      exact hnl (h6 ▸ h7)

theorem no_occ_append_blank2 {pat X : List Char} (hpat : pat ≠ []) (hnl : '\n' ∉ pat)
    (hlen : 2 < pat.length) (hX : ∀ j, ¬ Occ pat X j) :
    ∀ j, ¬ Occ pat (X ++ blank2) j := by
  intro j h
  have hb : X ++ blank2 = X ++ '\n' :: ['\n'] := rfl
  rw [hb] at h
  rcases occ_append_nl hpat hnl h with h1 | ⟨h2, _⟩
  · exact hX j h1
  · have h3 := occ_length hpat h2
    simp only [List.length_cons, List.length_nil] at h3
    omega

theorem no_occ_E_mid {stats : List Char} (hstats : ∀ j, ¬ Occ endMarker stats j) :
    ∀ j, ¬ Occ endMarker (sectionTitle ++ stats ++ blank2) j := by
  intro j h
  have hdec : sectionTitle ++ stats ++ blank2
      = "\n## 📊 使用言語統計\n".data ++ '\n' :: (stats ++ blank2) := by
    show sectionTitle ++ (stats ++ blank2) = _
    rw [show sectionTitle = "\n## 📊 使用言語統計\n".data ++ ['\n'] by decide]
    simp
  rw [hdec] at h
  rcases occ_append_nl endMarker_ne_nil newline_not_mem_endMarker h with h1 | ⟨h2, _⟩
  · exact absurd (occ_head_mem endMarker_head h1) (by decide)
  · exact no_occ_append_blank2 endMarker_ne_nil newline_not_mem_endMarker (by decide)
      hstats _ h2

/-! The substitution consumes a leading clean prefix followed by a fresh
section, and is a fixpoint on its own output. -/

theorem reSub_append {stats : List Char} (g r : List Char)
    (hg : ∀ j, ¬ Occ startMarker g j)
    (hstats : ∀ j, ¬ Occ endMarker stats j) :
    reSub startMarker endMarker (statsSection stats) (g ++ statsSection stats ++ r)
      = g ++ statsSection stats
          ++ reSub startMarker endMarker (statsSection stats) r := by
  have hsec : statsSection stats ++ r
      = startMarker ++ ((sectionTitle ++ stats ++ blank2) ++ (endMarker ++ r)) := by
    simp [statsSection, List.append_assoc]
  have h1 : findOcc startMarker (g ++ (statsSection stats ++ r)) = some g.length := by
    apply findOcc_append_first startMarker_ne_nil startMarker_noBorder hg
    exact ⟨_, hsec.symm⟩
  have hd1 : (g ++ (statsSection stats ++ r)).drop (g.length + startMarker.length)
      = (sectionTitle ++ stats ++ blank2) ++ (endMarker ++ r) := by
    rw [← List.drop_drop, List.drop_left, hsec, List.drop_left]
  have h2 : findOcc endMarker ((g ++ (statsSection stats ++ r)).drop
      (g.length + startMarker.length)) = some (sectionTitle ++ stats ++ blank2).length := by
    rw [hd1]
    exact findOcc_append_first endMarker_ne_nil endMarker_noBorder (no_occ_E_mid hstats)
      (prefApp _ _)
  have hstep := reSub_step (statsSection stats) startMarker_ne_nil h1 h2
  rw [List.append_assoc g, hstep, List.take_left]
  have hlen : g.length + startMarker.length + (sectionTitle ++ stats ++ blank2).length
      + endMarker.length = (g ++ statsSection stats).length := by
    simp [statsSection, List.length_append]
    omega
  rw [hlen, show g ++ (statsSection stats ++ r) = (g ++ statsSection stats) ++ r by
    simp [List.append_assoc], List.drop_left, List.append_assoc]

theorem reSub_fix_aux {stats : List Char} (hstats : ∀ j, ¬ Occ endMarker stats j) :
    ∀ n (doc : List Char), doc.length ≤ n →
      reSub startMarker endMarker (statsSection stats)
          (reSub startMarker endMarker (statsSection stats) doc)
        = reSub startMarker endMarker (statsSection stats) doc := by
  intro n
  induction n with
  | zero =>
    intro doc hn
    have hdoc : doc = [] := List.length_eq_zero.mp (by omega)
    subst hdoc
    rfl
  | succ n ih =>
    intro doc hn
    cases h1 : findOcc startMarker doc with
    | none => rw [reSub_of_none1 h1, reSub_of_none1 h1]
    | some i =>
      cases h2 : findOcc endMarker (doc.drop (i + startMarker.length)) with
      | none => rw [reSub_of_none2 h1 h2, reSub_of_none2 h1 h2]
      | some j =>
        have hstep := reSub_step (statsSection stats) startMarker_ne_nil h1 h2
        have hg : ∀ k, ¬ Occ startMarker (doc.take i) k := by
          intro k hk
          have hk2 := occ_of_take hk
          have hk3 := occ_length startMarker_ne_nil hk
          rw [List.length_take] at hk3
          have hk4 : k < i := by
            have : 0 < startMarker.length := List.length_pos.mpr startMarker_ne_nil
            omega
          exact (findOcc_some h1).2 k hk4 hk2
        have hrem : (doc.drop (i + startMarker.length + j + endMarker.length)).length ≤ n := by
          rw [List.length_drop]
          have : 0 < startMarker.length := List.length_pos.mpr startMarker_ne_nil
          have hocc := occ_length startMarker_ne_nil (findOcc_some h1).1
          omega
        rw [hstep, reSub_append _ _ hg hstats, ih _ hrem]

theorem reSub_idem {stats doc : List Char} (hstats : ∀ j, ¬ Occ endMarker stats j) :
    reSub startMarker endMarker (statsSection stats)
        (reSub startMarker endMarker (statsSection stats) doc)
      = reSub startMarker endMarker (statsSection stats) doc :=
  reSub_fix_aux hstats doc.length doc le_rfl

/-! Lemmas about updateContent, leading to the splicer claims. -/

theorem take_add_of_occ {pat s : List Char} {i : ℕ} (h : Occ pat s i) :
    s.take (i + pat.length) = s.take i ++ pat := by
  have h1 : pat = (s.drop i).take pat.length := by
    have h2 := prefEqTake.mp h
    exact h2
  rw [List.take_add]
  rw [← h1]

theorem containsSub_sec_start (X Y stats : List Char) :
    containsSub startMarker (X ++ statsSection stats ++ Y) = true := by
  apply containsSub_of_occ X.length
  unfold Occ
  rw [show X ++ statsSection stats ++ Y
      = X ++ (startMarker ++ (sectionTitle ++ stats ++ blank2 ++ endMarker ++ Y)) by
    simp [statsSection, List.append_assoc], List.drop_left]
  exact prefApp _ _

theorem containsSub_sec_end (X Y stats : List Char) :
    containsSub endMarker (X ++ statsSection stats ++ Y) = true := by
  apply containsSub_of_occ (X ++ startMarker ++ sectionTitle ++ stats ++ blank2).length
  unfold Occ
  rw [show X ++ statsSection stats ++ Y
      = (X ++ startMarker ++ sectionTitle ++ stats ++ blank2) ++ (endMarker ++ Y) by
    simp [statsSection, List.append_assoc], List.drop_left]
  exact prefApp _ _

theorem updateContent_markers {stats content : List Char}
    (hS : containsSub startMarker content = true)
    (hE : containsSub endMarker content = true) :
    updateContent stats content
      = reSub startMarker endMarker (statsSection stats) content := by
  simp [updateContent, hS, hE]

theorem updateContent_arrowBranch {stats content : List Char} {i : ℕ}
    (hb : (containsSub startMarker content && containsSub endMarker content) = false)
    (hl : lastOcc arrowDelim content = some i) :
    updateContent stats content = content.take i ++ arrowDelim ++ blank2
      ++ statsSection stats ++ content.drop (i + arrowDelim.length) := by
  simp [updateContent, hb, hl]

theorem updateContent_appendBranch {stats content : List Char}
    (hb : (containsSub startMarker content && containsSub endMarker content) = false)
    (hl : lastOcc arrowDelim content = none) :
    updateContent stats content = content ++ blank2 ++ statsSection stats := by
  simp [updateContent, hb, hl]

theorem reSub_contains (stats : List Char) {content : List Char}
    (hS : containsSub startMarker content = true)
    (hE : containsSub endMarker content = true) :
    containsSub startMarker
        (reSub startMarker endMarker (statsSection stats) content) = true ∧
      containsSub endMarker
        (reSub startMarker endMarker (statsSection stats) content) = true := by
  cases h1 : findOcc startMarker content with
  | none => rw [reSub_of_none1 h1]; exact ⟨hS, hE⟩
  | some i =>
    cases h2 : findOcc endMarker (content.drop (i + startMarker.length)) with
    | none => rw [reSub_of_none2 h1 h2]; exact ⟨hS, hE⟩
    | some j =>
      rw [reSub_step _ startMarker_ne_nil h1 h2]
      exact ⟨containsSub_sec_start _ _ _, containsSub_sec_end _ _ _⟩

theorem newline_mem_blank2_decomp : blank2 = '\n' :: ['\n'] := rfl

theorem no_occ_S_take_arrow {content : List Char} {i : ℕ}
    (hgS : ∀ j, ¬ Occ startMarker content j)
    (harr : Occ arrowDelim content i) :
    ∀ j, ¬ Occ startMarker (content.take i ++ arrowDelim ++ blank2) j := by
  have hX : content.take i ++ arrowDelim = content.take (i + arrowDelim.length) :=
    (take_add_of_occ harr).symm
  rw [hX]
  exact no_occ_append_blank2 startMarker_ne_nil newline_not_mem_startMarker (by decide)
    (fun j hj => hgS j (occ_of_take hj))

/-- Idempotence of the literal-replacement transformation, for a rendered
table without the end marker and a document that does not contain the start
marker without the end marker. -/
theorem updateContent_idem (stats content : List Char)
    (hstats : containsSub endMarker stats = false)
    (hSE : containsSub startMarker content = true →
      containsSub endMarker content = true) :
    updateContent stats (updateContent stats content)
      = updateContent stats content := by
  have hst := not_occ_of_containsSub_eq_false hstats
  by_cases hS : containsSub startMarker content = true
  · have hE := hSE hS
    rw [updateContent_markers hS hE]
    obtain ⟨hD1S, hD1E⟩ := reSub_contains stats hS hE
    rw [updateContent_markers hD1S hD1E]
    exact reSub_idem hst
  · have hSfalse : containsSub startMarker content = false := Bool.eq_false_iff.mpr hS
    have hb : (containsSub startMarker content && containsSub endMarker content) = false := by
      rw [hSfalse]; rfl
    have hgS := not_occ_of_containsSub_eq_false hSfalse
    cases hl : lastOcc arrowDelim content with
    | some i =>
      rw [updateContent_arrowBranch hb hl]
      have harr := (lastOcc_some arrowDelim_ne_nil hl).1
      have hD1S : containsSub startMarker (content.take i ++ arrowDelim ++ blank2
          ++ statsSection stats ++ content.drop (i + arrowDelim.length)) = true :=
        containsSub_sec_start _ _ _
      have hD1E : containsSub endMarker (content.take i ++ arrowDelim ++ blank2
          ++ statsSection stats ++ content.drop (i + arrowDelim.length)) = true :=
        containsSub_sec_end _ _ _
      rw [updateContent_markers hD1S hD1E]
      have hfix := reSub_append (content.take i ++ arrowDelim ++ blank2)
        (content.drop (i + arrowDelim.length))
        (no_occ_S_take_arrow hgS harr) hst
      rw [hfix]
      cases hf : findOcc startMarker (content.drop (i + arrowDelim.length)) with
      | some k => exact absurd (occ_drop (findOcc_some hf).1) (hgS _)
      | none => rw [reSub_of_none1 hf]
    | none =>
      rw [updateContent_appendBranch hb hl]
      have he : content ++ blank2 ++ statsSection stats
          = (content ++ blank2) ++ statsSection stats ++ [] := by simp
      rw [he]
      have hD1S : containsSub startMarker
          ((content ++ blank2) ++ statsSection stats ++ []) = true :=
        containsSub_sec_start _ _ _
      have hD1E : containsSub endMarker
          ((content ++ blank2) ++ statsSection stats ++ []) = true :=
        containsSub_sec_end _ _ _
      rw [updateContent_markers hD1S hD1E]
      have hfix := reSub_append (content ++ blank2) ([] : List Char)
        (no_occ_append_blank2 startMarker_ne_nil newline_not_mem_startMarker (by decide) hgS)
        hst
      rw [hfix, reSub_nil]

set_option maxRecDepth 10000

/-! Bridge between the literal-replacement transformation and the faithful
template-processing one: they coincide when the rendered table is
backslash-free, because the replacement template then parses to its own
characters and expands literally. -/

theorem expandTemplate_map_ch (l m : List Char) :
    expandTemplate (l.map ReplPiece.ch) m = l := by
  induction l with
  | nil => rfl
  | cons c cs ih =>
    simp only [List.map_cons, expandTemplate, ih]

theorem parseTemplGo_noBackslash :
    ∀ (fuel : ℕ) (l : List Char), l.length < fuel → '\\' ∉ l →
      parseTemplGo fuel l = .ok (l.map ReplPiece.ch) := by
  intro fuel
  induction fuel with
  | zero => intro l h _; omega
  | succ n ih =>
    intro l hlen hmem
    cases l with
    | nil => rfl
    | cons c tail =>
      have hc : ¬ (c = '\\') := fun h => hmem (h ▸ List.mem_cons_self _ _)
      show parseTemplGo (n + 1) (c :: tail) = _
      simp only [parseTemplGo]
      rw [if_neg hc, ih tail (by simp only [List.length_cons] at hlen; omega)
        (fun h => hmem (List.mem_cons_of_mem _ h))]
      rfl

theorem parseReplTemplate_noBackslash {repl : List Char} (h : '\\' ∉ repl) :
    parseReplTemplate repl = .ok (repl.map ReplPiece.ch) :=
  parseTemplGo_noBackslash _ _ (by omega) h

theorem reSubTGo_map_ch :
    ∀ (fuel : ℕ) (sp ep repl s : List Char),
      reSubTGo fuel sp ep (repl.map ReplPiece.ch) s = reSubGo fuel sp ep repl s := by
  intro fuel
  induction fuel with
  | zero => intro sp ep repl s; rfl
  | succ n ih =>
    intro sp ep repl s
    cases h1 : findOcc sp s with
    | none => simp only [reSubTGo, reSubGo, h1]
    | some i =>
      cases h2 : findOcc ep (s.drop (i + sp.length)) with
      | none => simp only [reSubTGo, reSubGo, h1, h2]
      | some j =>
        simp only [reSubTGo, reSubGo, h1, h2]
        rw [expandTemplate_map_ch, ih]

theorem reSubT_noBackslash {sp ep repl s : List Char} (h : '\\' ∉ repl) :
    reSubT sp ep repl s = .ok (reSub sp ep repl s) := by
  unfold reSubT
  rw [parseReplTemplate_noBackslash h]
  show Except.ok (reSubTGo s.length sp ep (repl.map ReplPiece.ch) s) = _
  rw [reSubTGo_map_ch]
  rfl

theorem backslash_not_mem_statsSection {stats : List Char} (h : '\\' ∉ stats) :
    '\\' ∉ statsSection stats := by
  intro hmem
  simp only [statsSection, List.mem_append] at hmem
  rcases hmem with ((((h1 | h2) | h3) | h4) | h5)
  · exact absurd h1 (by decide)
  · exact absurd h2 (by decide)
  · exact h h3
  · exact absurd h4 (by decide)
  · exact absurd h5 (by decide)

theorem updateContentT_eq {stats content : List Char} (h : '\\' ∉ stats) :
    updateContentT stats content = .ok (updateContent stats content) := by
  unfold updateContentT updateContent
  cases hb : (containsSub startMarker content && containsSub endMarker content) with
  | true => exact reSubT_noBackslash (backslash_not_mem_statsSection h)
  | false => rfl

/-- C7 (amended): the splice is idempotent whenever the rendered table
contains no backslash (so re.sub treats the replacement literally) and does
not contain the end marker, and the starting document does not contain the
start marker without the end marker: transforming twice equals transforming
once. -/
theorem c7_theorem (stats content : List Char)
    (hbs : '\\' ∉ stats)
    (hstats : containsSub endMarker stats = false)
    (hSE : containsSub startMarker content = true →
      containsSub endMarker content = true) :
    (updateContentT stats content).bind (updateContentT stats)
      = updateContentT stats content := by
  rw [updateContentT_eq hbs]
  show updateContentT stats (updateContent stats content) = _
  rw [updateContentT_eq hbs, updateContent_idem stats content hstats hSE]

/-- C7 as stated is false, on three instances of the real transformation: a
document consisting of the start marker alone (its trailing closing delimiter
fires the insert branch, and the second run rewrites from that early start
marker), a rendered table equal to the end marker (the second run matches a
shorter span inside the section), and a rendered table \g<0> (the second run
expands the backreference to the whole matched span instead of the literal
section). -/
theorem c7_counterexample :
    ¬ ((updateContentT "T".data startMarker).bind (updateContentT "T".data)
        = updateContentT "T".data startMarker) ∧
    ¬ ((updateContentT endMarker []).bind (updateContentT endMarker)
        = updateContentT endMarker []) ∧
    ¬ ((updateContentT "\\g<0>".data []).bind (updateContentT "\\g<0>".data)
        = updateContentT "\\g<0>".data []) := by decide

theorem c7_witness :
    (updateContentT "T".data "abc".data).bind (updateContentT "T".data)
      = updateContentT "T".data "abc".data :=
  c7_theorem "T".data "abc".data (by decide) (by decide) (by decide)

/-- C1 (amended): with no marker present, the section is inserted immediately
after the LAST closing delimiter of the document, with a blank line, and
everything before and after that point is preserved verbatim. -/
theorem c1_theorem (stats content : List Char)
    (hS : containsSub startMarker content = false)
    (hE : containsSub endMarker content = false)
    (hA : containsSub arrowDelim content = true) :
    ∃ p0 p1 : List Char, content = p0 ++ arrowDelim ++ p1 ∧
      containsSub arrowDelim p1 = false ∧
      updateContent stats content
        = p0 ++ arrowDelim ++ blank2 ++ statsSection stats ++ p1 := by
  have hb : (containsSub startMarker content && containsSub endMarker content) = false := by
    rw [hS]; rfl
  cases hl : lastOcc arrowDelim content with
  | none =>
    exfalso
    obtain ⟨j, hj⟩ := exists_occ_of_containsSub hA
    exact lastOcc_none arrowDelim_ne_nil hl j hj
  | some i =>
    obtain ⟨harr, hmax⟩ := lastOcc_some arrowDelim_ne_nil hl
    refine ⟨content.take i, content.drop (i + arrowDelim.length), ?_, ?_, ?_⟩
    · have h1 : content.take (i + arrowDelim.length) = content.take i ++ arrowDelim :=
        take_add_of_occ harr
      rw [← h1, List.take_append_drop]
    · cases hc : containsSub arrowDelim (content.drop (i + arrowDelim.length)) with
      | false => rfl
      | true =>
        exfalso
        obtain ⟨k, hk⟩ := exists_occ_of_containsSub hc
        have hk2 := occ_drop hk
        have h3 : 0 < arrowDelim.length := by decide
        exact hmax _ (by omega) hk2
    · exact updateContent_arrowBranch hb hl

/-- C1 as stated is false: with two closing delimiters the section is not
inserted after the first one. -/
theorem c1_counterexample :
    updateContent "T".data "a-->b-->c".data
      ≠ "a".data ++ arrowDelim ++ blank2 ++ statsSection "T".data ++ "b-->c".data := by
  decide

theorem c1_witness :
    ∃ p0 p1 : List Char, "a-->b".data = p0 ++ arrowDelim ++ p1 ∧
      containsSub arrowDelim p1 = false ∧
      updateContent "T".data "a-->b".data
        = p0 ++ arrowDelim ++ blank2 ++ statsSection "T".data ++ p1 :=
  c1_theorem "T".data "a-->b".data (by decide) (by decide) (by decide)

/-- The literal-replacement transformation on a document with exactly one
start marker followed by an end marker: exactly that span is replaced. -/
theorem updateContent_uniqueReplace (stats a c d : List Char)
    (ha : containsSub startMarker a = false)
    (hcd : containsSub startMarker (c ++ endMarker ++ d) = false)
    (hc : containsSub endMarker c = false) :
    updateContent stats (a ++ startMarker ++ c ++ endMarker ++ d)
      = a ++ statsSection stats ++ d := by
  have hshape1 : a ++ startMarker ++ c ++ endMarker ++ d
      = a ++ (startMarker ++ (c ++ (endMarker ++ d))) := by
    simp [List.append_assoc]
  have hshape2 : a ++ startMarker ++ c ++ endMarker ++ d
      = (a ++ startMarker) ++ (c ++ (endMarker ++ d)) := by
    simp [List.append_assoc]
  have hshape3 : a ++ startMarker ++ c ++ endMarker ++ d
      = (a ++ startMarker ++ c) ++ (endMarker ++ d) := by
    simp [List.append_assoc]
  have hshape4 : a ++ startMarker ++ c ++ endMarker ++ d
      = (a ++ startMarker ++ c ++ endMarker) ++ d := rfl
  have hdocS : containsSub startMarker (a ++ startMarker ++ c ++ endMarker ++ d) = true := by
    apply containsSub_of_occ a.length
    unfold Occ
    rw [hshape1, List.drop_left]
    exact prefApp _ _
  have hdocE : containsSub endMarker (a ++ startMarker ++ c ++ endMarker ++ d) = true := by
    apply containsSub_of_occ (a ++ startMarker ++ c).length
    unfold Occ
    rw [hshape3, List.drop_left]
    exact prefApp _ _
  rw [updateContent_markers hdocS hdocE]
  have h1 : findOcc startMarker (a ++ startMarker ++ c ++ endMarker ++ d) = some a.length := by
    rw [hshape1]
    exact findOcc_append_first startMarker_ne_nil startMarker_noBorder
      (not_occ_of_containsSub_eq_false ha) (prefApp _ _)
  have hd1 : (a ++ startMarker ++ c ++ endMarker ++ d).drop (a.length + startMarker.length)
      = c ++ (endMarker ++ d) := by
    rw [hshape2, show a.length + startMarker.length = (a ++ startMarker).length by
      simp [List.length_append]]
    exact List.drop_left _ _
  have h2 : findOcc endMarker ((a ++ startMarker ++ c ++ endMarker ++ d).drop
      (a.length + startMarker.length)) = some c.length := by
    rw [hd1]
    exact findOcc_append_first endMarker_ne_nil endMarker_noBorder
      (not_occ_of_containsSub_eq_false hc) (prefApp _ _)
  rw [reSub_step _ startMarker_ne_nil h1 h2]
  have ht : (a ++ startMarker ++ c ++ endMarker ++ d).take a.length = a := by
    rw [hshape1]
    exact List.take_left _ _
  have hd2 : (a ++ startMarker ++ c ++ endMarker ++ d).drop
      (a.length + startMarker.length + c.length + endMarker.length) = d := by
    rw [hshape4, show a.length + startMarker.length + c.length + endMarker.length
      = (a ++ startMarker ++ c ++ endMarker).length by simp [List.length_append]; omega]
    exact List.drop_left _ _
  rw [ht, hd2]
  cases hf : findOcc startMarker d with
  | some k =>
    exfalso
    have hk := (findOcc_some hf).1
    exact not_occ_of_containsSub_eq_false hcd _ (occ_append_r (c ++ endMarker) hk)
  | none => rw [reSub_of_none1 hf]

/-- C8 (amended): for a rendered table without backslashes (so re.sub treats
the replacement literally), when the document contains exactly one start
marker with an end marker somewhere after it, exactly the span from that
start marker to the first following end marker is replaced by the new
section, and everything outside it is preserved verbatim. -/
theorem c8_theorem (stats a c d : List Char)
    (hbs : '\\' ∉ stats)
    (ha : containsSub startMarker a = false)
    (hcd : containsSub startMarker (c ++ endMarker ++ d) = false)
    (hc : containsSub endMarker c = false) :
    updateContentT stats (a ++ startMarker ++ c ++ endMarker ++ d)
      = .ok (a ++ statsSection stats ++ d) := by
  rw [updateContentT_eq hbs, updateContent_uniqueReplace stats a c d ha hcd hc]

/-- C8 as stated is false, on two instances of the real transformation: with
two marker spans both are replaced, not only the first; and with a rendered
table \g<0> the written span is the expanded backreference, not the new
section. -/
theorem c8_counterexample :
    updateContentT "T".data (startMarker ++ endMarker ++ startMarker ++ endMarker)
      ≠ .ok (statsSection "T".data ++ startMarker ++ endMarker) ∧
    updateContentT "\\g<0>".data (startMarker ++ "y".data ++ endMarker)
      ≠ .ok (statsSection "\\g<0>".data) := by
  constructor
  · decide
  · decide

theorem c8_witness :
    updateContentT "T".data
        ("x".data ++ startMarker ++ "y".data ++ endMarker ++ "z".data)
      = .ok ("x".data ++ statsSection "T".data ++ "z".data) :=
  c8_theorem "T".data "x".data "y".data "z".data (by decide) (by decide) (by decide)
    (by decide)

/-! Claims about the error-handling of the splicer and the aggregator. -/

/-- C9 as stated is false: only a missing file is recovered; any other read
failure propagates before the write. -/
theorem c9_counterexample :
    update_readme "T".data ReadOutcome.otherError
      ≠ Except.ok (updateContent "T".data defaultContent) := by
  simp [update_readme]

/-- C9 (amended): a missing-file read failure (FileNotFoundError) is never
fatal; update_readme proceeds with the fixed default starting document and
writes the spliced result. -/
theorem c9_theorem (stats_markdown : List Char) :
    update_readme stats_markdown ReadOutcome.fileNotFound
      = Except.ok (updateContent stats_markdown defaultContent) := rfl

theorem aggregate_filter_aux :
    ∀ (repos : List Repo) (acc : List (String × ℕ)),
      repos.foldl addRepo acc
        = (repos.filter (fun r => !r.fork && r.languages.isSome)).foldl addRepo acc := by
  intro repos
  induction repos with
  | nil => intro acc; rfl
  | cons r rs ih =>
    intro acc
    cases hfork : r.fork with
    | true =>
      simp only [List.foldl_cons, List.filter_cons, hfork]
      rw [show addRepo acc r = acc by simp [addRepo, hfork]]
      simpa using ih acc
    | false =>
      cases hlang : r.languages with
      | none =>
        simp only [List.foldl_cons, List.filter_cons, hfork, hlang]
        rw [show addRepo acc r = acc by simp [addRepo, hfork, hlang]]
        simpa using ih acc
      | some langs =>
        simp only [List.foldl_cons, List.filter_cons, hfork, hlang]
        simpa using ih (addRepo acc r)

/-- C6: forked repositories and failed language fetches contribute nothing to
the aggregate (removing them leaves the result unchanged), and if no
repository qualifies the mapping is empty. -/
theorem c6_theorem (repos : List Repo) :
    get_language_stats repos
        = get_language_stats (repos.filter (fun r => !r.fork && r.languages.isSome)) ∧
      ((∀ r ∈ repos, r.fork = true ∨ r.languages = none) →
        get_language_stats repos = []) := by
  constructor
  · exact aggregate_filter_aux repos []
  · intro h
    have hfilter : repos.filter (fun r => !r.fork && r.languages.isSome) = [] := by
      rw [List.filter_eq_nil_iff]
      intro r hr
      rcases h r hr with hf | hl
      · simp [hf]
      · simp [hl]
    have h2 := aggregate_filter_aux repos []
    rw [hfilter] at h2
    exact h2

theorem c6_witness :
    get_language_stats [⟨true, some [("Python", 100)]⟩, ⟨false, none⟩] = [] :=
  (c6_theorem _).2 (by decide)

/-! Claims about the percentage ranker. -/

theorem insertByPercent_perm (x : String × ℚ × ℕ) (l : List (String × ℚ × ℕ)) :
    (insertByPercent x l).Perm (x :: l) := by
  induction l with
  | nil => exact List.Perm.refl _
  | cons y ys ih =>
    unfold insertByPercent
    by_cases h : y.2.1 ≤ x.2.1
    · rw [if_pos h]
    · rw [if_neg h]
      exact (ih.cons y).trans (List.Perm.swap x y ys)

theorem sortByPercent_perm (l : List (String × ℚ × ℕ)) : (sortByPercent l).Perm l := by
  induction l with
  | nil => exact List.Perm.refl _
  | cons x xs ih =>
    unfold sortByPercent
    exact (insertByPercent_perm x (sortByPercent xs)).trans (ih.cons x)

theorem insertByPercent_sorted {x : String × ℚ × ℕ} {l : List (String × ℚ × ℕ)}
    (h : List.Pairwise (fun a b => b.2.1 ≤ a.2.1) l) :
    List.Pairwise (fun a b => b.2.1 ≤ a.2.1) (insertByPercent x l) := by
  induction l with
  | nil => simp [insertByPercent]
  | cons y ys ih =>
    rw [List.pairwise_cons] at h
    obtain ⟨hy, hys⟩ := h
    unfold insertByPercent
    by_cases hxy : y.2.1 ≤ x.2.1
    · rw [if_pos hxy]
      rw [List.pairwise_cons]
      refine ⟨?_, List.pairwise_cons.mpr ⟨hy, hys⟩⟩
      intro z hz
      rcases List.mem_cons.mp hz with rfl | hz2
      · exact hxy
      · exact le_trans (hy z hz2) hxy
    · rw [if_neg hxy]
      rw [List.pairwise_cons]
      refine ⟨?_, ih hys⟩
      intro z hz
      have hz2 := (insertByPercent_perm x ys).mem_iff.mp hz
      rcases List.mem_cons.mp hz2 with rfl | hz3
      · exact le_of_lt (not_le.mp hxy)
      · exact hy z hz3

theorem sortByPercent_sorted (l : List (String × ℚ × ℕ)) :
    List.Pairwise (fun a b => b.2.1 ≤ a.2.1) (sortByPercent l) := by
  induction l with
  | nil => simp [sortByPercent]
  | cons x xs ih =>
    unfold sortByPercent
    exact insertByPercent_sorted ih

/-- C3: the ranker returns the empty sequence on the empty mapping, one entry
(language, bytes / total * 100, bytes) per input entry, and the sequence is
sorted by percentage non-increasing. -/
theorem c3_theorem (language_bytes : List (String × ℕ)) :
    (calculate_percentages language_bytes).Perm
        (language_bytes.map (fun p =>
          (p.1, ((p.2 : ℚ) / (((language_bytes.map (fun q => q.2)).sum : ℕ) : ℚ)) * 100,
            p.2))) ∧
      List.Pairwise (fun a b => b.2.1 ≤ a.2.1) (calculate_percentages language_bytes) ∧
      calculate_percentages [] = [] := by
  refine ⟨?_, ?_, rfl⟩
  · unfold calculate_percentages
    by_cases h : language_bytes = []
    · subst h; simp
    · rw [if_neg h]
      exact sortByPercent_perm _
  · unfold calculate_percentages
    by_cases h : language_bytes = []
    · subst h; simp
    · rw [if_neg h]
      exact sortByPercent_sorted _

theorem percent_sum_aux (l : List (String × ℕ)) (T : ℚ) :
    ((l.map (fun p => (p.1, ((p.2 : ℚ) / T) * 100, p.2))).map (fun e => e.2.1)).sum
      = ((l.map (fun p => ((p.2 : ℕ) : ℚ))).sum / T) * 100 := by
  induction l with
  | nil => simp
  | cons p ps ih =>
    simp only [List.map_cons, List.sum_cons]
    rw [ih]
    ring

/-- C2: over the rationals, the percentages of a non-empty mapping with a
positive total sum to exactly 100. -/
theorem c2_theorem (language_bytes : List (String × ℕ))
    (h1 : language_bytes ≠ [])
    (h2 : 0 < (language_bytes.map (fun p => p.2)).sum) :
    ((calculate_percentages language_bytes).map (fun e => e.2.1)).sum = 100 := by
  unfold calculate_percentages
  rw [if_neg h1]
  have hperm := ((sortByPercent_perm (language_bytes.map (fun p =>
    (p.1, ((p.2 : ℚ) / (((language_bytes.map (fun p => p.2)).sum : ℕ) : ℚ)) * 100,
      p.2)))).map (fun e => e.2.1)).sum_eq
  rw [hperm, percent_sum_aux]
  have hc : (language_bytes.map (fun p => ((p.2 : ℕ) : ℚ))).sum
      = (((language_bytes.map (fun p => p.2)).sum : ℕ) : ℚ) := by
    rw [Nat.cast_list_sum, List.map_map]
    rfl
  rw [hc, div_self (by exact_mod_cast h2.ne')]
  norm_num

theorem c2_witness :
    ((calculate_percentages [("Python", 1)]).map (fun e => e.2.1)).sum = 100 :=
  c2_theorem _ (by decide) (by decide)

/-! Claims about the renderer. -/

theorem ratTrunc_eq_floor {q : ℚ} (h : 0 ≤ q) : ratTrunc q = ⌊q⌋ := by
  unfold ratTrunc
  have hnum : 0 ≤ q.num := Rat.num_nonneg.mpr h
  have hfl : ⌊q⌋ = q.num / (q.den : ℤ) := by
    conv_lhs => rw [← Rat.num_div_den q]
    rw [Rat.floor_intCast_div_natCast]
  rw [hfl]
  exact Int.tdiv_eq_ediv hnum (by positivity)

/-- C4: for a percentage in the closed interval from 0 to 100, the bar is
floor(20 * percent / 100) filled glyphs followed by 20 minus that many empty
glyphs, its length is always 20, and the three sample points of the spec
render as stated. -/
theorem c4_theorem :
    (∀ percent : ℚ, 0 ≤ percent → percent ≤ 100 →
      bar percent = List.replicate (Int.toNat ⌊20 * percent / 100⌋) '█'
          ++ List.replicate (20 - Int.toNat ⌊20 * percent / 100⌋) '░' ∧
        (bar percent).length = 20) ∧
      bar 50 = List.replicate 10 '█' ++ List.replicate 10 '░' ∧
      bar 0 = List.replicate 0 '█' ++ List.replicate 20 '░' ∧
      bar 100 = List.replicate 20 '█' ++ List.replicate 0 '░' := by
  have key : ∀ percent : ℚ, 0 ≤ percent → percent ≤ 100 →
      bar percent = List.replicate (Int.toNat ⌊20 * percent / 100⌋) '█'
          ++ List.replicate (20 - Int.toNat ⌊20 * percent / 100⌋) '░' ∧
        (bar percent).length = 20 := by
    intro p h0 h100
    have hf : barFilled p = ⌊20 * p / 100⌋ := ratTrunc_eq_floor (by positivity)
    have h0f : 0 ≤ ⌊20 * p / 100⌋ := Int.floor_nonneg.mpr (by positivity)
    have h20 : ⌊20 * p / 100⌋ ≤ 20 := by
      have hle : (20 * p / 100 : ℚ) ≤ 20 := by
        rw [div_le_iff (by norm_num)]
        linarith
      have h2 := Int.floor_le_floor hle
      rwa [Int.floor_ofNat] at h2
    constructor
    · unfold bar
      rw [hf]
      have ht : ((20 : ℤ) - ⌊20 * p / 100⌋).toNat = 20 - (⌊20 * p / 100⌋).toNat := by
        omega
      rw [ht]
    · unfold bar
      rw [hf]
      simp only [List.length_append, List.length_replicate]
      omega
  refine ⟨key, ?_, ?_, ?_⟩
  · have h1 := (key 50 (by norm_num) (by norm_num)).1
    rw [h1, show (20 * (50 : ℚ) / 100) = 10 by norm_num, Int.floor_ofNat]
    rfl
  · have h1 := (key 0 (by norm_num) (by norm_num)).1
    rw [h1, show (20 * (0 : ℚ) / 100) = 0 by norm_num]
    rfl
  · have h1 := (key 100 (by norm_num) (by norm_num)).1
    rw [h1, show (20 * (100 : ℚ) / 100) = 20 by norm_num, Int.floor_ofNat]
    rfl

theorem c4_witness :
    bar 50 = List.replicate (Int.toNat ⌊20 * (50 : ℚ) / 100⌋) '█'
        ++ List.replicate (20 - Int.toNat ⌊20 * (50 : ℚ) / 100⌋) '░' ∧
      (bar 50).length = 20 :=
  c4_theorem.1 50 (by norm_num) (by norm_num)

theorem roundHalfEven_ofNat (n : ℕ) [n.AtLeastTwo] :
    roundHalfEven (OfNat.ofNat n : ℚ) = OfNat.ofNat n := by
  unfold roundHalfEven
  rw [Int.floor_ofNat]
  rw [show (OfNat.ofNat n : ℚ) - (((n : ℕ) : ℤ) : ℚ) = 0 by push_cast; exact sub_self _]
  rw [if_pos (by norm_num : (0 : ℚ) < 1 / 2)]
  rfl

theorem fmt2_two : fmt2 2 = "2.00".data := by
  unfold fmt2
  rw [show ((2 : ℚ) * 100) = 200 by norm_num, roundHalfEven_ofNat]
  decide

theorem fmt2_five : fmt2 5 = "5.00".data := by
  unfold fmt2
  rw [show ((5 : ℚ) * 100) = 500 by norm_num, roundHalfEven_ofNat]
  decide

/-- C5: the size column uses megabytes with two decimals from 1,048,576 bytes
on, kilobytes with two decimals from 1,024 bytes on, the raw byte count below
that, and the three sample points of the spec render as stated. -/
theorem c5_theorem :
    (∀ b : ℕ, 1048576 ≤ b → sizeStr b = fmt2 ((b : ℚ) / 1048576) ++ " MB".data) ∧
      (∀ b : ℕ, 1024 ≤ b → b < 1048576 →
        sizeStr b = fmt2 ((b : ℚ) / 1024) ++ " KB".data) ∧
      (∀ b : ℕ, b < 1024 → sizeStr b = (toString b).data ++ " bytes".data) ∧
      sizeStr 500 = "500 bytes".data ∧
      sizeStr 2048 = "2.00 KB".data ∧
      sizeStr (5 * 1024 * 1024) = "5.00 MB".data := by
  have hMB : ∀ b : ℕ, 1048576 ≤ b → sizeStr b = fmt2 ((b : ℚ) / 1048576) ++ " MB".data := by
    intro b hb
    unfold sizeStr
    rw [if_pos (by omega : b ≥ 1024 * 1024)]
    norm_num
  have hKB : ∀ b : ℕ, 1024 ≤ b → b < 1048576 →
      sizeStr b = fmt2 ((b : ℚ) / 1024) ++ " KB".data := by
    intro b hb1 hb2
    unfold sizeStr
    rw [if_neg (by omega : ¬ b ≥ 1024 * 1024), if_pos (by omega : b ≥ 1024)]
  have hBytes : ∀ b : ℕ, b < 1024 → sizeStr b = (toString b).data ++ " bytes".data := by
    intro b hb
    unfold sizeStr
    rw [if_neg (by omega : ¬ b ≥ 1024 * 1024), if_neg (by omega : ¬ b ≥ 1024)]
  refine ⟨hMB, hKB, hBytes, ?_, ?_, ?_⟩
  · rw [hBytes 500 (by norm_num)]
    decide
  · rw [hKB 2048 (by norm_num) (by norm_num),
      show ((2048 : ℕ) : ℚ) / 1024 = 2 by norm_num, fmt2_two]
    decide
  · rw [hMB (5 * 1024 * 1024) (by norm_num),
      show (((5 * 1024 * 1024 : ℕ) : ℚ)) / 1048576 = 5 by norm_num, fmt2_five]
    decide

theorem c5_witness : sizeStr 2048 = fmt2 ((2048 : ℚ) / 1024) ++ " KB".data := by
  have h := c5_theorem.2.1 2048 (by norm_num) (by norm_num)
  rwa [show (((2048 : ℕ) : ℚ)) = (2048 : ℚ) by norm_num] at h
